import Mathlib

set_option maxHeartbeats 1000000

/-!
A shallow embedding, in Lean, of the parts of a Rust VRP metaheuristic solver
that its specification talks about, together with theorems settling the
specification claims against the embedded code.

Each namespace below embeds one source module:

* `Cmp`    — `src/utils/comparison.rs` (`compare_floats`)
* `Nsga`   — `vrp-core/src/algorithms/nsga2/objective.rs` (`dominance_order`)
* `Term`   — `vrp-core/src/utils/variation_coefficient.rs`
* `Sel`    — `vrp-core/src/construction/heuristics/selectors.rs`
* `Evo`    — `vrp-core/src/solver/evolution/mod.rs`
* `Compat` — `vrp-pragmatic/src/constraints/compatibility.rs`
-/

namespace VrpSpec

namespace Cmp

/-- A model of an `f64` value as seen by `compare_floats`: either NaN or a
non-NaN value. `compare_floats` performs no arithmetic — only `is_nan` tests
and `partial_cmp`, which is total on non-NaN values — so the non-NaN values
are modelled by rationals, which have the same order structure. -/
inductive F where
  | nan : F
  | val : ℚ → F
deriving DecidableEq

/-- Embeds `f64::is_nan` on the model. -/
def F.is_nan : F → Bool
  | .nan => true
  | .val _ => false

/-- Embeds `compare_floats` from `src/utils/comparison.rs`: both NaN compare
equal, NaN is greater than any non-NaN value, and non-NaN values compare by
`partial_cmp`. -/
def compare_floats (a b : F) : Ordering :=
  match a, b with
  | .nan, .nan => .eq
  | .nan, _ => .gt
  | _, .nan => .lt
  | .val x, .val y => if x < y then .lt else if x = y then .eq else .gt

theorem compare_floats_val_gt {x y : ℚ} :
    compare_floats (.val x) (.val y) = .gt ↔ y < x := by
  simp only [compare_floats]
  split_ifs with h1 h2
  · simp only [reduceCtorEq, false_iff, not_lt]
    exact le_of_lt h1
  · simp only [reduceCtorEq, false_iff, not_lt]
    exact le_of_eq h2
  · simp only [true_iff]
    exact lt_of_le_of_ne (not_lt.mp h1) (fun h => h2 h.symm)

theorem compare_floats_val_eq {x y : ℚ} :
    compare_floats (.val x) (.val y) = .eq ↔ x = y := by
  simp only [compare_floats]
  split_ifs with h1 h2
  · simp only [reduceCtorEq, false_iff]
    exact ne_of_lt h1
  · simpa
  · simpa

/-- C2: `compare_floats` is a total order on the modelled f64 values:
swapping the arguments swaps the result (totality and asymmetry), `Equal`
implies the two values are the same (antisymmetry), the induced `≤` relation
is transitive, two NaNs compare `Equal`, and NaN compares `Greater` than any
non-NaN value (`Less` when NaN is only the second argument). -/
theorem compare_floats_total_order :
    (∀ a b : F, compare_floats a b = (compare_floats b a).swap)
      ∧ (∀ a b : F, compare_floats a b = .eq → a = b)
      ∧ (∀ a b c : F,
          compare_floats a b ≠ .gt → compare_floats b c ≠ .gt → compare_floats a c ≠ .gt)
      ∧ compare_floats .nan .nan = .eq
      ∧ (∀ q : ℚ, compare_floats .nan (.val q) = .gt)
      ∧ (∀ q : ℚ, compare_floats (.val q) .nan = .lt) := by
  refine ⟨?_, ?_, ?_, rfl, fun q => rfl, fun q => rfl⟩
  · intro a b
    cases a with
    | nan =>
      cases b with
      | nan => rfl
      | val y => rfl
    | val x =>
      cases b with
      | nan => rfl
      | val y =>
        rcases lt_trichotomy x y with h | h | h
        · have h1 : ¬ y < x := asymm h
          have h2 : y ≠ x := ne_of_gt h
          simp [compare_floats, h, h1, h2, Ordering.swap]
        · subst h
          simp [compare_floats, lt_irrefl, Ordering.swap]
        · have h1 : ¬ x < y := asymm h
          have h2 : x ≠ y := ne_of_gt h
          simp [compare_floats, h, h1, h2, Ordering.swap]
  · intro a b h
    cases a with
    | nan =>
      cases b with
      | nan => rfl
      | val y => exact absurd h (by simp [compare_floats])
    | val x =>
      cases b with
      | nan => exact absurd h (by simp [compare_floats])
      | val y =>
        rw [compare_floats_val_eq] at h
        rw [h]
  · intro a b c hab hbc
    cases a with
    | nan =>
      cases b with
      | nan =>
        cases c with
        | nan => simp [compare_floats]
        | val z => exact absurd rfl hbc
      | val y => exact absurd rfl hab
    | val x =>
      cases c with
      | nan => simp [compare_floats]
      | val z =>
        cases b with
        | nan => exact absurd rfl hbc
        | val y =>
          rw [Ne, compare_floats_val_gt, not_lt] at hab hbc ⊢
          exact le_trans hab hbc

/-- Witness for C2: the transitivity conjunct applied at concrete values. -/
theorem compare_floats_total_order_witness :
    compare_floats (F.val 1) (F.val 3) ≠ .gt :=
  compare_floats_total_order.2.2.1 (F.val 1) (F.val 2) (F.val 3) (by decide) (by decide)

end Cmp

namespace Nsga

/-- One step of the counting loop in `dominance_order`: bump the `less_cnt` or
`greater_cnt` counter according to the objective's `total_order` answer. -/
def count_step {S : Type} (a b : S) (acc : ℕ × ℕ) (objective : S → S → Ordering) : ℕ × ℕ :=
  match objective a b with
  | .lt => (acc.1 + 1, acc.2)
  | .gt => (acc.1, acc.2 + 1)
  | .eq => acc

/-- Embeds `dominance_order` from `vrp-core/src/algorithms/nsga2/objective.rs`.
An objective is represented by its `total_order` comparison on solutions (the
trait method the loop calls through dynamic dispatch). -/
def dominance_order {S : Type} (a b : S) (objectives : List (S → S → Ordering)) : Ordering :=
  let counts := objectives.foldl (count_step a b) (0, 0)
  if 0 < counts.1 ∧ counts.2 = 0 then .lt
  else if 0 < counts.2 ∧ counts.1 = 0 then .gt
  else .eq

theorem foldl_count_step {S : Type} (a b : S) :
    ∀ (objectives : List (S → S → Ordering)) (acc : ℕ × ℕ),
      objectives.foldl (count_step a b) acc =
        (acc.1 + objectives.countP (fun o => decide (o a b = Ordering.lt)),
         acc.2 + objectives.countP (fun o => decide (o a b = Ordering.gt))) := by
  intro objectives
  induction objectives with
  | nil => intro acc; simp
  | cons o rest ih =>
    intro acc
    rw [List.foldl_cons, ih, List.countP_cons, List.countP_cons]
    cases h : o a b <;> simp [count_step, h, Prod.ext_iff] <;> ring

/-- C1: `dominance_order` returns `Less` exactly when `a` is no worse than `b`
on every objective and strictly better on at least one, `Greater` in the
symmetric case, and `Equal` otherwise — when every objective answers `Equal`,
or there are strict wins in both directions. -/
theorem dominance_order_spec {S : Type} (a b : S) (objectives : List (S → S → Ordering)) :
    (dominance_order a b objectives = .lt ↔
       (∀ o ∈ objectives, o a b ≠ .gt) ∧ (∃ o ∈ objectives, o a b = .lt))
      ∧ (dominance_order a b objectives = .gt ↔
       (∀ o ∈ objectives, o a b ≠ .lt) ∧ (∃ o ∈ objectives, o a b = .gt))
      ∧ (dominance_order a b objectives = .eq ↔
       ((∀ o ∈ objectives, o a b = .eq) ∨
         ((∃ o ∈ objectives, o a b = .lt) ∧ (∃ o ∈ objectives, o a b = .gt)))) := by
  set L := objectives.countP (fun o => decide (o a b = Ordering.lt)) with hLdef
  set G := objectives.countP (fun o => decide (o a b = Ordering.gt)) with hGdef
  have hL : 0 < L ↔ ∃ o ∈ objectives, o a b = .lt := by
    rw [hLdef, List.countP_pos_iff]; simp
  have hG : 0 < G ↔ ∃ o ∈ objectives, o a b = .gt := by
    rw [hGdef, List.countP_pos_iff]; simp
  have hL0 : L = 0 ↔ ∀ o ∈ objectives, o a b ≠ .lt := by
    rw [hLdef, List.countP_eq_zero]; simp
  have hG0 : G = 0 ↔ ∀ o ∈ objectives, o a b ≠ .gt := by
    rw [hGdef, List.countP_eq_zero]; simp
  have hdef : dominance_order a b objectives =
      if 0 < L ∧ G = 0 then Ordering.lt
      else if 0 < G ∧ L = 0 then Ordering.gt
      else Ordering.eq := by
    simp only [dominance_order]
    rw [foldl_count_step]
    simp only [Nat.zero_add]
  clear_value L G
  have t1 : dominance_order a b objectives = Ordering.lt ↔ 0 < L ∧ G = 0 := by
    rw [hdef]; split_ifs with h1 h2
    · simpa using h1
    · simp only [reduceCtorEq, false_iff]
      exact fun h => absurd h h1
    · simp only [reduceCtorEq, false_iff]
      exact fun h => absurd h h1
  have t2 : dominance_order a b objectives = Ordering.gt ↔ 0 < G ∧ L = 0 := by
    rw [hdef]; split_ifs with h1 h2
    · simp only [reduceCtorEq, false_iff]
      intro h
      rw [h.2] at h1
      exact absurd h1.1 (Nat.lt_irrefl 0)
    · simpa using h2
    · simp only [reduceCtorEq, false_iff]
      exact fun h => absurd h h2
  have t3 : dominance_order a b objectives = Ordering.eq ↔
      ((L = 0 ∧ G = 0) ∨ (0 < L ∧ 0 < G)) := by
    rw [hdef]; split_ifs with h1 h2
    · simp only [reduceCtorEq, false_iff]
      intro h
      rcases h with ⟨hl, hg⟩ | ⟨hl, hg⟩
      · rw [hl] at h1
        exact absurd h1.1 (Nat.lt_irrefl 0)
      · rw [h1.2] at hg
        exact absurd hg (Nat.lt_irrefl 0)
    · simp only [reduceCtorEq, false_iff]
      intro h
      rcases h with ⟨hl, hg⟩ | ⟨hl, hg⟩
      · rw [hg] at h2
        exact absurd h2.1 (Nat.lt_irrefl 0)
      · rw [h2.2] at hl
        exact absurd hl (Nat.lt_irrefl 0)
    · simp only [true_iff]
      rcases Nat.eq_zero_or_pos L with hl | hl
      · rcases Nat.eq_zero_or_pos G with hg | hg
        · exact Or.inl ⟨hl, hg⟩
        · exact absurd ⟨hg, hl⟩ h2
      · rcases Nat.eq_zero_or_pos G with hg | hg
        · exact absurd ⟨hl, hg⟩ h1
        · exact Or.inr ⟨hl, hg⟩
  have hEq : ((∀ o ∈ objectives, o a b ≠ .lt) ∧ (∀ o ∈ objectives, o a b ≠ .gt)) ↔
      (∀ o ∈ objectives, o a b = .eq) := by
    constructor
    · rintro ⟨h1, h2⟩ o ho
      cases h : o a b with
      | lt => exact absurd h (h1 o ho)
      | eq => rfl
      | gt => exact absurd h (h2 o ho)
    · intro h
      exact ⟨fun o ho => by simp [h o ho], fun o ho => by simp [h o ho]⟩
  refine ⟨?_, ?_, ?_⟩
  · rw [t1, hL, hG0, and_comm]
  · rw [t2, hG, hL0, and_comm]
  · rw [t3, hL0, hG0, hEq, hL, hG]

end Nsga

namespace Term

/-- Embeds `VariationCoefficient` from
`vrp-core/src/utils/variation_coefficient.rs`. Costs are modelled as
rationals, so that everything up to the square root stays computable. -/
structure VariationCoefficient where
  sample : ℕ
  threshold : ℚ

/-- Embeds `VariationCoefficient::calculate_variance`: one fold accumulating
`Σ dev²` and `Σ dev`, then `(first - second * second / sample) / (sample - 1)`. -/
def calculate_variance (vc : VariationCoefficient) (costs : List ℚ) (mean : ℚ) : ℚ :=
  let acc := costs.foldl
    (fun (acc : ℚ × ℚ) v => (acc.1 + (v - mean) * (v - mean), acc.2 + (v - mean)))
    (0, 0)
  (acc.1 - acc.2 * acc.2 / (vc.sample : ℚ)) / ((vc.sample : ℚ) - 1)

/-- Embeds `VariationCoefficient::check_threshold`: the coefficient of
variation `stddev / mean` compared against the threshold. The square root
lives in the reals, so the boolean float comparison becomes a proposition. -/
def check_threshold (vc : VariationCoefficient) (costs : List ℚ) : Prop :=
  let mean := costs.sum / (vc.sample : ℚ)
  let variance := calculate_variance vc costs mean
  Real.sqrt (variance : ℝ) / (mean : ℝ) < (vc.threshold : ℝ)

/-- Embeds `VariationCoefficient::update_and_check`: write the cost at window
index `generation % sample`, fire iff `generation ≥ sample - 1` and the
threshold check passes on the updated window. -/
def update_and_check (vc : VariationCoefficient) (generation : ℕ) (costs : List ℚ)
    (cost : ℚ) : List ℚ × Prop :=
  let costs := costs.set (generation % vc.sample) cost
  (costs, vc.sample - 1 ≤ generation ∧ check_threshold vc costs)

/-- The corrected sample variance as the specification words it: sum of squared
deviations from the mean, divided by `n - 1`. -/
def sample_variance (costs : List ℚ) : ℚ :=
  let n : ℚ := costs.length
  let mean := costs.sum / n
  (costs.map (fun x => (x - mean) * (x - mean))).sum / (n - 1)

theorem foldl_dev (mean : ℚ) :
    ∀ (costs : List ℚ) (p q : ℚ),
      costs.foldl
          (fun (acc : ℚ × ℚ) v => (acc.1 + (v - mean) * (v - mean), acc.2 + (v - mean)))
          (p, q) =
        (p + (costs.map (fun v => (v - mean) * (v - mean))).sum,
         q + (costs.map (fun v => v - mean)).sum) := by
  intro costs
  induction costs with
  | nil => intro p q; simp
  | cons c rest ih =>
    intro p q
    rw [List.foldl_cons, ih, List.map_cons, List.map_cons, List.sum_cons, List.sum_cons]
    simp only [Prod.mk.injEq]
    constructor <;> ring

theorem sum_map_dev (mean : ℚ) :
    ∀ costs : List ℚ,
      (costs.map (fun v => v - mean)).sum = costs.sum - (costs.length : ℚ) * mean := by
  intro costs
  induction costs with
  | nil => simp
  | cons c rest ih =>
    rw [List.map_cons, List.sum_cons, ih, List.sum_cons, List.length_cons]
    push_cast
    ring

/-- The code's variance formula coincides with the corrected sample variance
once the mean is exact: the accumulated `Σ dev` is zero. -/
theorem calculate_variance_eq (vc : VariationCoefficient) (costs : List ℚ)
    (hn : 1 ≤ vc.sample) (hlen : costs.length = vc.sample) :
    calculate_variance vc costs (costs.sum / (vc.sample : ℚ)) = sample_variance costs := by
  have hN : (vc.sample : ℚ) ≠ 0 := Nat.cast_ne_zero.mpr (by omega)
  simp only [calculate_variance, foldl_dev, zero_add, sum_map_dev, hlen]
  have hzero : costs.sum - (vc.sample : ℚ) * (costs.sum / (vc.sample : ℚ)) = 0 := by
    field_simp
  rw [hzero]
  simp only [sample_variance, hlen, zero_mul, zero_div, sub_zero]

/-- C3: `update_and_check` stores the cost at window index
`generation % sample`, and fires exactly when `generation ≥ sample - 1` (one
update per generation starting at generation 0, so at least `sample` costs
recorded) and the coefficient of variation `stddev / mean` of the window —
with the corrected sample variance, divisor `sample - 1` — is below the
threshold. -/
theorem update_and_check_spec (vc : VariationCoefficient) (generation : ℕ)
    (costs : List ℚ) (cost : ℚ) (hn : 1 ≤ vc.sample) (hlen : costs.length = vc.sample) :
    (update_and_check vc generation costs cost).1 =
        costs.set (generation % vc.sample) cost
      ∧ ((update_and_check vc generation costs cost).2 ↔
        (vc.sample - 1 ≤ generation ∧
          Real.sqrt ((sample_variance (costs.set (generation % vc.sample) cost) : ℚ) : ℝ) /
              (((costs.set (generation % vc.sample) cost).sum / (vc.sample : ℚ) : ℚ) : ℝ) <
            ((vc.threshold : ℚ) : ℝ))) := by
  refine ⟨rfl, ?_⟩
  have hlen2 : (costs.set (generation % vc.sample) cost).length = vc.sample := by
    rw [List.length_set, hlen]
  simp only [update_and_check, check_threshold]
  rw [calculate_variance_eq vc _ hn hlen2]

/-- Witness for C3 at a concrete window of two equal costs. -/
theorem update_and_check_witness :
    (update_and_check ⟨2, 1⟩ 1 [5, 5] 5).1 = [5, 5]
      ∧ ((update_and_check ⟨2, 1⟩ 1 [5, 5] 5).2 ↔
        (2 - 1 ≤ 1 ∧
          Real.sqrt ((sample_variance [5, 5] : ℚ) : ℝ) /
              ((([5, 5].sum / (2 : ℚ) : ℚ)) : ℝ) < ((1 : ℚ) : ℝ))) := by
  have h := update_and_check_spec ⟨2, 1⟩ 1 [5, 5] 5 (by norm_num) rfl
  simpa using h

end Term

namespace Sel

/-- The payload of a successful insertion that the selectors look at: its cost
(`f64` in the source, modelled as ℚ — only comparisons are performed) plus an
identity token standing for the job/route/activities data. -/
structure InsertionSuccess where
  cost : ℚ
  job : ℕ
deriving DecidableEq

/-- The payload of a failed insertion: the `stopped` flag and the violation
code of the failed constraint. -/
structure InsertionFailure where
  stopped : Bool
  constraint : ℤ
deriving DecidableEq

/-- Embeds `InsertionResult`, the tagged union Success/Failure. -/
inductive InsertionResult where
  | success : InsertionSuccess → InsertionResult
  | failure : InsertionFailure → InsertionResult
deriving DecidableEq

/-- Modelled from the spec: `InsertionResult::choose_best_result` is declared
in the insertion evaluator, which is not among the provided sources (only its
callers in `selectors.rs` are). Per the spec it keeps the lower-cost success,
a Success always beats a Failure, and a Failure outranks another Failure only
if it was `stopped`. -/
def choose_best_result (left right : InsertionResult) : InsertionResult :=
  match left, right with
  | .success _, .failure _ => left
  | .failure _, .success _ => right
  | .success left_success, .success right_success =>
    if left_success.cost < right_success.cost then left else right
  | .failure left_failure, .failure _ =>
    if left_failure.stopped then left else right

/-- Embeds `BestResultSelector::select_insertion`
(`vrp-core/src/construction/heuristics/selectors.rs`): it delegates to
`choose_best_result`. The insertion context argument is unused in the source. -/
def BestResultSelector.select_insertion (left right : InsertionResult) : InsertionResult :=
  choose_best_result left right

/-- Modelled from the spec: `Noise` (a vrp-core utility, not among the provided
sources) applies multiplicative noise sampled per evaluation; it is abstracted
as the realized map from a cost to its noise-adjusted value. -/
structure Noise where
  add : ℚ → ℚ

/-- Embeds `NoiseResultSelector::select_insertion`
(`vrp-core/src/construction/heuristics/selectors.rs`): Success beats Failure,
two Successes compare by noise-adjusted cost, and the catch-all arm — which
covers two Failures — returns `right`. -/
def NoiseResultSelector.select_insertion (noise : Noise) (left right : InsertionResult) :
    InsertionResult :=
  match left, right with
  | .success _, .failure _ => left
  | .failure _, .success _ => right
  | .success left_success, .success right_success =>
    let left_cost := noise.add left_success.cost
    let right_cost := noise.add right_success.cost
    if left_cost < right_cost then left else right
  | _, _ => right

/-- Counterexample for C4: with realized multiplicative noise factors 1.05 on
cost 100 and 0.95 on cost 101, `NoiseResultSelector` keeps the Success whose
raw cost 101 is the higher of the two, and between a stopped and an
un-stopped Failure it keeps the un-stopped second argument. -/
theorem noise_result_selector_violates_c4 :
    NoiseResultSelector.select_insertion
        ⟨fun c => if c = 100 then 105 else if c = 101 then 9595 / 100 else c⟩
        (.success ⟨100, 0⟩) (.success ⟨101, 1⟩) = .success ⟨101, 1⟩
      ∧ (100 : ℚ) < 101
      ∧ NoiseResultSelector.select_insertion ⟨fun c => c⟩
          (.failure ⟨true, 1⟩) (.failure ⟨false, 2⟩) = .failure ⟨false, 2⟩ := by
  refine ⟨?_, by norm_num, rfl⟩
  simp only [NoiseResultSelector.select_insertion]
  norm_num

/-- C4 (amended): Success always beats Failure for both selectors.
`BestResultSelector` keeps the strictly lower-cost Success (the second
argument on ties) and, between two Failures, keeps the first exactly when it
is stopped; `NoiseResultSelector` keeps the Success whose noise-adjusted cost
is lower — possibly the higher raw cost — and between two Failures always
keeps the second, regardless of the stopped flag. -/
theorem result_selector_spec :
    (∀ s f, BestResultSelector.select_insertion (.success s) (.failure f) = .success s)
      ∧ (∀ s f, BestResultSelector.select_insertion (.failure f) (.success s) = .success s)
      ∧ (∀ s₁ s₂, BestResultSelector.select_insertion (.success s₁) (.success s₂) =
          if s₁.cost < s₂.cost then .success s₁ else .success s₂)
      ∧ (∀ f₁ f₂, BestResultSelector.select_insertion (.failure f₁) (.failure f₂) =
          if f₁.stopped then .failure f₁ else .failure f₂)
      ∧ (∀ n s f, NoiseResultSelector.select_insertion n (.success s) (.failure f) = .success s)
      ∧ (∀ n s f, NoiseResultSelector.select_insertion n (.failure f) (.success s) = .success s)
      ∧ (∀ n s₁ s₂, NoiseResultSelector.select_insertion n (.success s₁) (.success s₂) =
          if n.add s₁.cost < n.add s₂.cost then .success s₁ else .success s₂)
      ∧ (∀ n f₁ f₂,
          NoiseResultSelector.select_insertion n (.failure f₁) (.failure f₂) = .failure f₂) := by
  refine ⟨fun s f => rfl, fun s f => rfl, fun s₁ s₂ => ?_, fun f₁ f₂ => rfl,
    fun n s f => rfl, fun n s f => rfl, fun n s₁ s₂ => ?_, fun n f₁ f₂ => rfl⟩
  · simp only [BestResultSelector.select_insertion, choose_best_result]
  · simp only [NoiseResultSelector.select_insertion]

/-- Counterexample for C5: `NoiseResultSelector` applied to two distinct
Failures returns whichever is the second argument, so swapping the arguments
changes the result. -/
theorem noise_result_selector_not_commutative :
    NoiseResultSelector.select_insertion ⟨fun c => c⟩
        (.failure ⟨false, 1⟩) (.failure ⟨false, 2⟩) = .failure ⟨false, 2⟩
      ∧ NoiseResultSelector.select_insertion ⟨fun c => c⟩
          (.failure ⟨false, 2⟩) (.failure ⟨false, 1⟩) = .failure ⟨false, 1⟩
      ∧ (InsertionResult.failure ⟨false, 1⟩ : InsertionResult) ≠ .failure ⟨false, 2⟩ := by
  refine ⟨rfl, rfl, by decide⟩

/-- C5 (amended): the best-of reduction is commutative whenever the two
results are strictly comparable — one Success and one Failure (either
selector), two Successes of distinct (noise-adjusted, for
`NoiseResultSelector`) costs, or, for `BestResultSelector`, two Failures of
which exactly one is stopped. On ties, and for `NoiseResultSelector` between
any two Failures, the selection keeps a position-dependent argument. -/
theorem select_insertion_comm_cases :
    (∀ s f, BestResultSelector.select_insertion (.success s) (.failure f) =
        BestResultSelector.select_insertion (.failure f) (.success s))
      ∧ (∀ n s f, NoiseResultSelector.select_insertion n (.success s) (.failure f) =
          NoiseResultSelector.select_insertion n (.failure f) (.success s))
      ∧ (∀ s₁ s₂, s₁.cost ≠ s₂.cost →
          BestResultSelector.select_insertion (.success s₁) (.success s₂) =
            BestResultSelector.select_insertion (.success s₂) (.success s₁))
      ∧ (∀ f₁ f₂, f₁.stopped ≠ f₂.stopped →
          BestResultSelector.select_insertion (.failure f₁) (.failure f₂) =
            BestResultSelector.select_insertion (.failure f₂) (.failure f₁))
      ∧ (∀ n s₁ s₂, n.add s₁.cost ≠ n.add s₂.cost →
          NoiseResultSelector.select_insertion n (.success s₁) (.success s₂) =
            NoiseResultSelector.select_insertion n (.success s₂) (.success s₁)) := by
  refine ⟨fun s f => rfl, fun n s f => rfl, fun s₁ s₂ h => ?_, fun f₁ f₂ h => ?_,
    fun n s₁ s₂ h => ?_⟩
  · simp only [BestResultSelector.select_insertion, choose_best_result]
    rcases lt_trichotomy s₁.cost s₂.cost with hc | hc | hc
    · rw [if_pos hc, if_neg (asymm hc)]
    · exact absurd hc h
    · rw [if_neg (asymm hc), if_pos hc]
  · simp only [BestResultSelector.select_insertion, choose_best_result]
    cases h1 : f₁.stopped <;> cases h2 : f₂.stopped
    · rw [h1, h2] at h
      exact absurd rfl h
    · simp
    · simp
    · rw [h1, h2] at h
      exact absurd rfl h
  · simp only [NoiseResultSelector.select_insertion]
    rcases lt_trichotomy (n.add s₁.cost) (n.add s₂.cost) with hc | hc | hc
    · rw [if_pos hc, if_neg (asymm hc)]
    · exact absurd hc h
    · rw [if_neg (asymm hc), if_pos hc]

/-- Witness for C5 (amended): the two-Successes commutativity conjunct of
`BestResultSelector` applied at distinct concrete costs. -/
theorem select_insertion_comm_cases_witness :
    BestResultSelector.select_insertion (.success ⟨1, 0⟩) (.success ⟨2, 1⟩) =
      BestResultSelector.select_insertion (.success ⟨2, 1⟩) (.success ⟨1, 0⟩) :=
  select_insertion_comm_cases.2.2.1 ⟨1, 0⟩ ⟨2, 1⟩ (by norm_num)

/-- Swap of two positions in a list, via `set`/`getD` (`d` is a default for
out-of-range reads; the shuffle only swaps in-range positions). -/
def list_swap {α : Type} (d : α) (l : List α) (i j : ℕ) : List α :=
  (l.set i (l.getD j d)).set j (l.getD i d)

theorem getD_cons_set_perm {α : Type} (d x : α) :
    ∀ (t : List α) (k : ℕ), k < t.length → (t.getD k d :: t.set k x).Perm (x :: t) := by
  intro t
  induction t with
  | nil =>
    intro k hk
    simp at hk
  | cons y t ih =>
    intro k hk
    cases k with
    | zero =>
      simp only [List.getD_cons_zero, List.set_cons_zero]
      exact List.Perm.swap x y t
    | succ k =>
      simp only [List.getD_cons_succ, List.set_cons_succ]
      have hk2 : k < t.length := by
        simp only [List.length_cons] at hk
        omega
      have h1 : (t.getD k d :: y :: t.set k x).Perm (y :: t.getD k d :: t.set k x) :=
        List.Perm.swap y (t.getD k d) (t.set k x)
      have h2 : (y :: t.getD k d :: t.set k x).Perm (y :: x :: t) := (ih k hk2).cons y
      have h3 : (y :: x :: t).Perm (x :: y :: t) := List.Perm.swap x y t
      exact (h1.trans h2).trans h3

theorem list_swap_perm {α : Type} (d : α) :
    ∀ (l : List α) (i j : ℕ), i < l.length → j < l.length → (list_swap d l i j).Perm l := by
  intro l
  induction l with
  | nil =>
    intro i j hi hj
    simp at hi
  | cons x t ih =>
    intro i j hi hj
    cases i with
    | zero =>
      cases j with
      | zero =>
        simp only [list_swap, List.getD_cons_zero, List.set_cons_zero]
        exact List.Perm.refl _
      | succ j =>
        simp only [list_swap, List.getD_cons_succ, List.getD_cons_zero, List.set_cons_zero,
          List.set_cons_succ]
        exact getD_cons_set_perm d x t j (by simp only [List.length_cons] at hj; omega)
    | succ i =>
      cases j with
      | zero =>
        simp only [list_swap, List.getD_cons_succ, List.getD_cons_zero, List.set_cons_succ,
          List.set_cons_zero]
        exact getD_cons_set_perm d x t i (by simp only [List.length_cons] at hi; omega)
      | succ j =>
        simp only [list_swap, List.getD_cons_succ, List.set_cons_succ]
        have hi2 : i < t.length := by simp only [List.length_cons] at hi; omega
        have hj2 : j < t.length := by simp only [List.length_cons] at hj; omega
        exact (ih i j hi2 hj2).cons x

/-- Modelled from the `rand` crate (an external dependency, declaration only):
`shuffle` is the Fisher-Yates shuffle — for `i` from `len - 1` down to `1`,
swap position `i` with a drawn position in `0..=i`. The per-step draws are
abstracted as the function `rng`; the draw at step `i` is `rng i`, brought
into range by `% (i + 1)`. -/
def shuffle {α : Type} (rng : ℕ → ℕ) (d : α) (l : List α) : List α :=
  ((List.range' 1 (l.length - 1)).reverse).foldl
    (fun acc i => list_swap d acc i (rng i % (i + 1))) l

theorem foldl_swap_perm {α : Type} (rng : ℕ → ℕ) (d : α) :
    ∀ (idxs : List ℕ) (acc : List α), (∀ i ∈ idxs, i < acc.length) →
      (idxs.foldl (fun acc i => list_swap d acc i (rng i % (i + 1))) acc).Perm acc := by
  intro idxs
  induction idxs with
  | nil =>
    intro acc h
    exact List.Perm.refl _
  | cons i rest ih =>
    intro acc h
    rw [List.foldl_cons]
    have hi : i < acc.length := h i (by simp)
    have hj : rng i % (i + 1) < acc.length :=
      lt_of_le_of_lt (Nat.le_of_lt_succ (Nat.mod_lt _ (Nat.succ_pos i))) hi
    have hswap := list_swap_perm d acc i (rng i % (i + 1)) hi hj
    have hrest := ih (list_swap d acc i (rng i % (i + 1)))
      (fun k hk => by rw [hswap.length_eq]; exact h k (List.mem_cons_of_mem _ hk))
    exact hrest.trans hswap

theorem shuffle_perm {α : Type} (rng : ℕ → ℕ) (d : α) (l : List α) :
    (shuffle rng d l).Perm l := by
  apply foldl_swap_perm
  intro i hi
  rw [List.mem_reverse, List.mem_range'] at hi
  obtain ⟨k, hk, rfl⟩ := hi
  omega

/-- The fields of `SolutionContext` that `AllJobSelector::select` can see;
jobs, routes and actors are identity tokens. -/
structure SolutionContext where
  required : List ℕ
  ignored : List ℕ
  locked : List ℕ
  routes : List ℕ
  registry : List ℕ

/-- Embeds `InsertionContext` as far as the job selector is concerned: a
solution plus the environment's random source (the realized draw stream). -/
structure InsertionContext where
  solution : SolutionContext
  rng : ℕ → ℕ

/-- Embeds `AllJobSelector::select`
(`vrp-core/src/construction/heuristics/selectors.rs`): shuffle
`solution.required` in place using the context's RNG, then iterate over it.
The pair is the mutated context and the job sequence the iterator yields. -/
def AllJobSelector.select (ctx : InsertionContext) : InsertionContext × List ℕ :=
  let required := shuffle ctx.rng 0 ctx.solution.required
  ({ ctx with solution := { ctx.solution with required := required } }, required)

/-- C9: `AllJobSelector::select` leaves `required` holding a permutation of
its previous contents, returns exactly that permuted sequence, and modifies
no other field of the context (the RNG handle itself is unchanged; only its
draws are consumed). -/
theorem all_job_selector_spec (ctx : InsertionContext) :
    ((AllJobSelector.select ctx).1.solution.required).Perm ctx.solution.required
      ∧ (AllJobSelector.select ctx).2 = (AllJobSelector.select ctx).1.solution.required
      ∧ (AllJobSelector.select ctx).1.solution.ignored = ctx.solution.ignored
      ∧ (AllJobSelector.select ctx).1.solution.locked = ctx.solution.locked
      ∧ (AllJobSelector.select ctx).1.solution.routes = ctx.solution.routes
      ∧ (AllJobSelector.select ctx).1.solution.registry = ctx.solution.registry
      ∧ (AllJobSelector.select ctx).1.rng = ctx.rng :=
  ⟨shuffle_perm _ _ _, rfl, rfl, rfl, rfl, rfl, rfl⟩

end Sel

namespace Evo

/-- Embeds the `initial` population settings of `EvolutionConfig`: the target
count of initial solutions, one weight per initial method, and the externally
provided initial solutions (identity tokens). -/
structure InitialConfig where
  size : ℕ
  weights : List ℕ
  individuals : List ℕ

/-- Embeds the `population` settings of `EvolutionConfig`. -/
structure PopulationConfig where
  initial : InitialConfig
  max_size : ℕ

/-- Embeds the part of `EvolutionConfig` that the constructor validates and
seeding reads. -/
structure EvolutionConfig where
  population : PopulationConfig

/-- Embeds `EvolutionSimulator::new` (`vrp-core/src/solver/evolution/mod.rs`):
reject `initial.size < 1`, then `initial.size > max_size`, then an empty
list of initial methods; otherwise return the simulator. -/
def EvolutionSimulator.new (config : EvolutionConfig) : Except String EvolutionConfig :=
  if config.population.initial.size < 1 then
    .error "initial size should be greater than 0"
  else if config.population.initial.size > config.population.max_size then
    .error "initial size should be less or equal population size"
  else if config.population.initial.weights = [] then
    .error "at least one initial method has to be specified"
  else
    .ok config

/-- C7: `EvolutionSimulator::new` succeeds exactly on configurations with
`1 ≤ initial.size ≤ max_size` and at least one initial method, and returns an
error exactly when `initial.size < 1`, or `initial.size > max_size`, or the
method list is empty. -/
theorem evolution_simulator_new_spec (config : EvolutionConfig) :
    ((EvolutionSimulator.new config = .ok config) ↔
        (1 ≤ config.population.initial.size
          ∧ config.population.initial.size ≤ config.population.max_size
          ∧ config.population.initial.weights ≠ []))
      ∧ ((∃ msg, EvolutionSimulator.new config = .error msg) ↔
        (config.population.initial.size < 1
          ∨ config.population.max_size < config.population.initial.size
          ∨ config.population.initial.weights = [])) := by
  unfold EvolutionSimulator.new
  split_ifs with h1 h2 h3
  · refine ⟨?_, ⟨fun _ => Or.inl h1, fun _ => ⟨_, rfl⟩⟩⟩
    simp only [reduceCtorEq, false_iff]
    rintro ⟨ha, -, -⟩
    omega
  · refine ⟨?_, ⟨fun _ => Or.inr (Or.inl h2), fun _ => ⟨_, rfl⟩⟩⟩
    simp only [reduceCtorEq, false_iff]
    rintro ⟨-, hb, -⟩
    omega
  · refine ⟨?_, ⟨fun _ => Or.inr (Or.inr h3), fun _ => ⟨_, rfl⟩⟩⟩
    simp only [reduceCtorEq, false_iff]
    rintro ⟨-, -, hc⟩
    exact hc h3
  · constructor
    · simp only [true_iff]
      exact ⟨by omega, by omega, h3⟩
    · constructor
      · rintro ⟨msg, hmsg⟩
        exact absurd hmsg (by simp)
      · intro h
        rcases h with h | h | h
        · omega
        · omega
        · exact absurd h h3

/-- Embeds `should_add_solution` (`vrp-core/src/solver/evolution/mod.rs`). The
quota is `none` when absent, otherwise the polled `is_reached` answer; the
population is abstracted by its size. -/
def should_add_solution (quota : Option Bool) (population_size : ℕ) : Bool :=
  let is_quota_reached := quota.getD false
  let is_population_empty := population_size == 0
  is_population_empty || !is_quota_reached

/-- C10: a candidate offered to an empty population is always accepted, even
when the quota is already reached; with a non-empty population it is accepted
exactly when the quota is absent or not reached — so a run interrupted by
quota still keeps its first solution. -/
theorem should_add_solution_spec (quota : Option Bool) (population_size : ℕ) :
    (population_size = 0 → should_add_solution quota population_size = true)
      ∧ (population_size ≠ 0 →
        (should_add_solution quota population_size = true ↔
          (quota = none ∨ quota = some false))) := by
  constructor
  · intro h
    simp [should_add_solution, h]
  · intro h
    cases quota with
    | none => simp [should_add_solution]
    | some b => cases b <;> simp [should_add_solution, h]

/-- Witness for C10: an empty population accepts a solution even with the
quota already reached. -/
theorem should_add_solution_witness :
    should_add_solution (some true) 0 = true :=
  (should_add_solution_spec (some true) 0).1 rfl

/-- Modelled from the spec: `DominancePopulation::add` (§4.4) inserts the
candidate, re-sorts the fronts and drops the worst individuals until the size
is at most `max_size`. Which individual is dropped depends on dominance and
crowding, which the size claims never inspect, so the population is
abstracted to its member list and `add` keeps `max_size` of the extended
list. -/
def population_add (max_size : ℕ) (population : List ℕ) (individual : ℕ) : List ℕ :=
  (population ++ [individual]).take max_size

theorem population_add_length (max_size : ℕ) (population : List ℕ) (individual : ℕ) :
    (population_add max_size population individual).length =
      min max_size (population.length + 1) := by
  simp [population_add]

/-- The environment `create_refinement_ctx` interacts with: the termination
predicate and the quota polled at step `idx`, the weighted choice of an
initial method at step `idx`, and the solution the chosen method produces at
step `idx` (run on a deep copy of the fresh empty insertion context). -/
structure SeedEnv where
  is_termination : ℕ → Bool
  is_quota_reached : Option (ℕ → Bool)
  weighted : ℕ → ℕ
  run_method : ℕ → ℕ → ℕ

/-- Embeds the first seeding phase of `create_refinement_ctx`: the externally
provided initial solutions, zipped with indices from zero, at most
`initial.size` of them, each offered subject to `should_add_solution`. -/
def accept_individuals (max_size : ℕ) (quota : Option (ℕ → Bool)) (size : ℕ)
    (individuals : List ℕ) : List ℕ :=
  ((individuals.take size).enum).foldl
    (fun population p =>
      if should_add_solution (quota.map fun q => q p.1) population.length then
        population_add max_size population p.2
      else population)
    []

/-- Embeds the second seeding phase of `create_refinement_ctx`: the loop over
the fixed range `population.size() .. initial.size` (`fuel` is its length),
exiting early when termination fires, otherwise running a weighted-chosen
initial method and offering the result. -/
def seed_loop (max_size : ℕ) (env : SeedEnv) : ℕ → ℕ → List ℕ → List ℕ
  | 0, _, population => population
  | fuel + 1, idx, population =>
    if env.is_termination idx then population
    else
      let method_idx := env.weighted idx
      let insertion_ctx := env.run_method method_idx idx
      let population :=
        if should_add_solution (env.is_quota_reached.map fun q => q idx) population.length then
          population_add max_size population insertion_ctx
        else population
      seed_loop max_size env fuel (idx + 1) population

/-- Embeds `EvolutionSimulator::create_refinement_ctx`: phase one accepts the
provided individuals into the fresh empty population, phase two fills the
population up to `initial.size`. -/
def create_refinement_ctx (config : EvolutionConfig) (env : SeedEnv) : List ℕ :=
  let population := accept_individuals config.population.max_size env.is_quota_reached
    config.population.initial.size config.population.initial.individuals
  seed_loop config.population.max_size env
    (config.population.initial.size - population.length) population.length population

theorem should_add_of_no_quota (quota : Option (ℕ → Bool))
    (hq : ∀ q, quota = some q → ∀ idx, q idx = false) (idx n : ℕ) :
    should_add_solution (quota.map fun q => q idx) n = true := by
  cases quota with
  | none => simp [should_add_solution]
  | some q => simp [should_add_solution, hq q rfl idx]

theorem min_add_min (m a k : ℕ) : min m (min m (a + 1) + k) = min m (a + 1 + k) := by
  omega

theorem accept_fold_length (max_size : ℕ) (quota : Option (ℕ → Bool))
    (hq : ∀ q, quota = some q → ∀ idx, q idx = false) :
    ∀ (pairs : List (ℕ × ℕ)) (population : List ℕ),
      population.length ≤ max_size →
      (pairs.foldl
        (fun population p =>
          if should_add_solution (quota.map fun q => q p.1) population.length then
            population_add max_size population p.2
          else population)
        population).length = min max_size (population.length + pairs.length) := by
  intro pairs
  induction pairs with
  | nil =>
    intro population h
    simp only [List.foldl_nil, List.length_nil, Nat.add_zero]
    exact (min_eq_right h).symm
  | cons p rest ih =>
    intro population h
    rw [List.foldl_cons]
    rw [should_add_of_no_quota quota hq p.1 population.length]
    simp only [if_true]
    rw [ih (population_add max_size population p.2)
      (by rw [population_add_length]; exact Nat.min_le_left _ _)]
    rw [population_add_length, List.length_cons, min_add_min]
    have harith : population.length + 1 + rest.length = population.length + (rest.length + 1) := by
      omega
    rw [harith]

theorem seed_loop_length (max_size : ℕ) (env : SeedEnv)
    (hterm : ∀ idx, env.is_termination idx = false)
    (hq : ∀ q, env.is_quota_reached = some q → ∀ idx, q idx = false) :
    ∀ (fuel idx : ℕ) (population : List ℕ),
      population.length + fuel ≤ max_size →
      (seed_loop max_size env fuel idx population).length = population.length + fuel := by
  intro fuel
  induction fuel with
  | zero =>
    intro idx population h
    simp [seed_loop]
  | succ fuel ih =>
    intro idx population h
    rw [seed_loop, hterm idx]
    simp only [Bool.false_eq_true, if_false]
    rw [should_add_of_no_quota env.is_quota_reached hq idx population.length]
    simp only [if_true]
    have hlen : (population_add max_size population
        (env.run_method (env.weighted idx) idx)).length = population.length + 1 := by
      rw [population_add_length]
      exact min_eq_right (by omega)
    rw [ih (idx + 1) _ (by rw [hlen]; omega), hlen]
    omega

/-- C6: when neither termination nor quota fires during seeding,
`create_refinement_ctx` ends with a population holding exactly
`initial.size` solutions — external individuals are capped at `initial.size`
and the loop over the remaining range adds one solution per step. -/
theorem create_refinement_ctx_size (config : EvolutionConfig) (env : SeedEnv)
    (hterm : ∀ idx, env.is_termination idx = false)
    (hq : ∀ q, env.is_quota_reached = some q → ∀ idx, q idx = false)
    (hsize : config.population.initial.size ≤ config.population.max_size) :
    (create_refinement_ctx config env).length = config.population.initial.size := by
  simp only [create_refinement_ctx]
  have hpop : (accept_individuals config.population.max_size env.is_quota_reached
      config.population.initial.size config.population.initial.individuals).length =
      min config.population.max_size
        (min config.population.initial.size config.population.initial.individuals.length) := by
    unfold accept_individuals
    rw [accept_fold_length config.population.max_size env.is_quota_reached hq _ []
      (by simp)]
    simp [List.enum_length]
  have hle : (accept_individuals config.population.max_size env.is_quota_reached
      config.population.initial.size config.population.initial.individuals).length ≤
      config.population.initial.size := by
    rw [hpop]
    exact le_trans (Nat.min_le_right _ _) (Nat.min_le_left _ _)
  rw [seed_loop_length config.population.max_size env hterm hq _ _ _ (by omega)]
  omega

/-- Witness for C6: a concrete configuration (initial size 2, max size 3, one
provided solution, one method) with no termination and no quota seeds exactly
two solutions. -/
theorem create_refinement_ctx_size_witness :
    (create_refinement_ctx ⟨⟨⟨2, [1], [9]⟩, 3⟩⟩
      ⟨fun _ => false, none, fun _ => 0, fun _ _ => 7⟩).length = 2 :=
  create_refinement_ctx_size ⟨⟨⟨2, [1], [9]⟩, 3⟩⟩
    ⟨fun _ => false, none, fun _ => 0, fun _ _ => 7⟩
    (fun _ => rfl) (fun q hq => by cases hq) (by norm_num)

end Evo

namespace Compat

/-- A job as the compatibility module sees it: the optional compatibility tag
stored in its dimension map under `COMPATIBILITY_DIMEN_KEY`. -/
structure Job where
  compatibility : Option String

/-- A route context as the compatibility module sees it: the jobs of its tour
and the entry of its state map at the module's `state_key`. The state is
`none` when no state was ever stored, `some none` when the stored state holds
no tag, and `some (some tag)` otherwise. -/
structure RouteContext where
  jobs : List Job
  compat_state : Option (Option String)

/-- Embeds `get_job_compatibility`
(`vrp-pragmatic/src/constraints/compatibility.rs`). -/
def get_job_compatibility (job : Job) : Option String :=
  job.compatibility

/-- Embeds `get_route_compatibility`: the first compatibility tag found among
the tour's jobs. -/
def get_route_compatibility (route_ctx : RouteContext) : Option String :=
  (route_ctx.jobs.filterMap get_job_compatibility).head?

/-- Embeds `CompatibilityHardRouteConstraint::evaluate_job`: a job without a
tag passes; with a tag, the route state must be absent, hold no tag, or hold
the same tag, otherwise a violation with the module's code is returned. -/
def evaluate_job (code : ℤ) (route_ctx : RouteContext) (job : Job) : Option ℤ :=
  (get_job_compatibility job).bind fun job_compat =>
    match route_ctx.compat_state with
    | none => none
    | some none => none
    | some (some route_compat) => if job_compat = route_compat then none else some code

/-- Embeds `CompatibilityModule::accept_route_state`: recompute the route tag
and store it; a route that never had a state and has no tag keeps no state. -/
def accept_route_state (route_ctx : RouteContext) : RouteContext :=
  match get_route_compatibility route_ctx, route_ctx.compat_state with
  | none, none => route_ctx
  | none, some _ => { route_ctx with compat_state := some none }
  | some v, _ => { route_ctx with compat_state := some (some v) }

/-- C8: `evaluate_job` returns a violation — always carrying the module's
code — exactly when the job carries a tag and the route's recorded state
holds a different tag; and consequently, once `accept_route_state` has
recorded a route whose first tag is `t`, a job tagged `u ≠ t` is rejected,
so differently-tagged jobs never share a tour. -/
theorem compatibility_evaluate_job_spec (code : ℤ) :
    (∀ (route_ctx : RouteContext) (job : Job) (c : ℤ),
        evaluate_job code route_ctx job = some c ↔
          (c = code ∧ ∃ jc rc, get_job_compatibility job = some jc
            ∧ route_ctx.compat_state = some (some rc) ∧ jc ≠ rc))
      ∧ (∀ (route_ctx : RouteContext) (job : Job) (t u : String),
          get_route_compatibility route_ctx = some t →
          get_job_compatibility job = some u → u ≠ t →
          evaluate_job code (accept_route_state route_ctx) job = some code) := by
  constructor
  · intro route_ctx job c
    constructor
    · intro h
      cases hj : job.compatibility with
      | none => simp [evaluate_job, get_job_compatibility, hj] at h
      | some jc =>
        cases hs : route_ctx.compat_state with
        | none => simp [evaluate_job, get_job_compatibility, hj, hs] at h
        | some s =>
          cases s with
          | none => simp [evaluate_job, get_job_compatibility, hj, hs] at h
          | some rc =>
            by_cases hjc : jc = rc
            · simp [evaluate_job, get_job_compatibility, hj, hs, hjc] at h
            · simp only [evaluate_job, get_job_compatibility, hj, hs, Option.some_bind,
                if_neg hjc, Option.some.injEq] at h
              exact ⟨h.symm, jc, rc, hj, rfl, hjc⟩
    · rintro ⟨rfl, jc, rc, hjc, hs, hne⟩
      have hjc2 : job.compatibility = some jc := hjc
      simp [evaluate_job, get_job_compatibility, hjc2, hs, hne]
  · intro route_ctx job t u hroute hjob hne
    have hstate : (accept_route_state route_ctx).compat_state = some (some t) := by
      obtain ⟨jobs, cs⟩ := route_ctx
      simp only [accept_route_state]
      rw [hroute]
    have hjob2 : job.compatibility = some u := hjob
    simp [evaluate_job, get_job_compatibility, hjob2, hstate, hne]

/-- Witness for C8: a route whose tour already carries tag "a", after its
state is recomputed, rejects a job tagged "b" with the module's code. -/
theorem compatibility_evaluate_job_witness :
    evaluate_job 5 (accept_route_state ⟨[⟨some "a"⟩], none⟩) ⟨some "b"⟩ = some 5 :=
  (compatibility_evaluate_job_spec 5).2 ⟨[⟨some "a"⟩], none⟩ ⟨some "b"⟩ "a" "b"
    rfl rfl (by decide)

end Compat

end VrpSpec
